import Mathlib

/-!
# gamepedia: the game handlers

A shallow embedding of `game_handlers.go` (the `Game` record, the package
variable `games`, `getGameHandler` and `createGameHandler`) together with the
parts of the Go standard library the two handlers call: `url.Values.Get`,
`http.Redirect`, the response writer, `json.Marshal` on a `[]Game`, and, for the
round-trip properties, a decoder for the JSON that lists `Game` objects.

Go strings are byte sequences; a byte is a natural number below 256.
-/

namespace Gamepedia

/-- Go `string` and `[]byte`: a sequence of bytes. -/
abbrev Bytes := List Nat

/-- The bytes of an ASCII string literal of the Go source. -/
def lit (s : String) : Bytes := s.toList.map Char.toNat

/-! ## The data model (game_handlers.go, lines 9-18) -/

/-- Game struct holds game related data. -/
structure Game where
  Title : Bytes
  Genre : Bytes
  Description : Bytes
  Rating : Bytes
  Link : Bytes
deriving DecidableEq, Repr

/-- The zero value `Game{}`: every string field is the empty string. -/
def Game.zero : Game := ⟨[], [], [], [], []⟩

/-! ## net/url and net/http -/

/-- Go `url.Values`, a `map[string][]string`, as an association list read by
its first binding of a key. -/
abbrev Values := List (Bytes × List Bytes)

/-- Go `Values.Get`: the first value associated with the key, the empty string
when the key has no values. -/
def Values.Get (v : Values) (key : Bytes) : Bytes :=
  match v.lookup key with
  | none => []
  | some [] => []
  | some (x :: _) => x

/-- An incoming request, as far as the handlers look at it: its method (read by
`http.Redirect`) and what `r.ParseForm()` does on it, which is either the error
it returns or the `r.Form` it fills in. -/
structure Request where
  Method : String
  ParseForm : Except String Values

def StatusOK : Nat := 200
def StatusFound : Nat := 302
def StatusInternalServerError : Nat := 500

/-- The response under construction, after `httptest.ResponseRecorder`: the
header map, whether the status line went out, the status code and the body. -/
structure ResponseWriter where
  header : List (String × String)
  wroteHeader : Bool
  Code : Nat
  Body : Bytes
deriving DecidableEq, Repr

/-- A writer nothing has been written to (`httptest.NewRecorder()`): code 200,
no header, empty body. -/
def NewRecorder : ResponseWriter := ⟨[], false, StatusOK, []⟩

/-- Go `Header.Set`: the key is bound to the single value. -/
def ResponseWriter.SetHeader (w : ResponseWriter) (k v : String) : ResponseWriter :=
  { w with header := (k, v) :: w.header.filter (fun p => p.1 != k) }

/-- Go `w.WriteHeader(code)`: the first call fixes the status, later ones are
ignored. -/
def ResponseWriter.WriteHeader (w : ResponseWriter) (code : Nat) : ResponseWriter :=
  if w.wroteHeader then w else { w with wroteHeader := true, Code := code }

/-- Go `w.Write(b)`: sends status 200 when no status went out yet, then appends
the bytes to the body. -/
def ResponseWriter.Write (w : ResponseWriter) (b : Bytes) : ResponseWriter :=
  let w1 := w.WriteHeader StatusOK
  { w1 with Body := w1.Body ++ b }

/-- Go `http.StatusText`, for the codes this program sends. -/
def StatusText (code : Nat) : String :=
  if code = 200 then "OK"
  else if code = 302 then "Found"
  else if code = 500 then "Internal Server Error"
  else ""

/-- Go `htmlEscape` of net/http on one character. -/
def htmlEscapeChar (c : Char) : String :=
  if c = '&' then "&amp;"
  else if c = '<' then "&lt;"
  else if c = '>' then "&gt;"
  else if c = '"' then "&#34;"
  else if c = '\'' then "&#39;"
  else c.toString

/-- Go `htmlEscape` of net/http. -/
def htmlEscape (s : String) : String :=
  String.join (s.toList.map htmlEscapeChar)

/-- Go `http.Redirect(w, r, url, code)` for a target that is already an absolute,
clean path (as "/assets/" is, which the normalisation step returns unchanged):
it sets `Location`, for GET and HEAD also `Content-Type` unless one was set,
writes the status, and for GET writes a short HTML note as the body. -/
def Redirect (w : ResponseWriter) (r : Request) (url : String) (code : Nat) : ResponseWriter :=
  let hadCT := w.header.any (fun p => p.1 == "Content-Type")
  let w1 := w.SetHeader "Location" url
  let w2 :=
    if !hadCT && (r.Method == "GET" || r.Method == "HEAD") then
      w1.SetHeader "Content-Type" "text/html; charset=utf-8"
    else w1
  let w3 := w2.WriteHeader code
  if !hadCT && r.Method == "GET" then
    w3.Write (lit ("<a href=\"" ++ htmlEscape url ++ "\">" ++ StatusText code ++ "</a>.\n" ++ "\n"))
  else w3

/-! ## unicode/utf8 -/

def RuneError : Nat := 0xFFFD
def RuneSelf : Nat := 0x80
def MaxRune : Nat := 0x10FFFF

/-- Go table `first` of unicode/utf8: information about the first byte of a
UTF-8 sequence (`as` = 0xF0 for ASCII, `xx` = 0xF1 for an invalid byte, else
the accept range in the high nibble and the size in the low one). -/
def first (b : Nat) : Nat :=
  if b < 0x80 then 0xF0
  else if b < 0xC2 then 0xF1
  else if b < 0xE0 then 0x02
  else if b = 0xE0 then 0x13
  else if b < 0xED then 0x03
  else if b = 0xED then 0x23
  else if b < 0xF0 then 0x03
  else if b = 0xF0 then 0x34
  else if b < 0xF4 then 0x04
  else if b = 0xF4 then 0x44
  else 0xF1

/-- Go table `acceptRanges` of unicode/utf8: the range `(lo, hi)` of valid second
bytes. -/
def acceptRanges (i : Nat) : Nat × Nat :=
  if i = 0 then (0x80, 0xBF)
  else if i = 1 then (0xA0, 0xBF)
  else if i = 2 then (0x80, 0x9F)
  else if i = 3 then (0x90, 0xBF)
  else (0x80, 0x8F)

/-- Go `utf8.DecodeRuneInString`: the first rune of `s` and its width in bytes;
`(RuneError, 0)` on the empty string and `(RuneError, 1)` on an invalid
encoding. The masks and shifts of the source are written as `%` and `*`:
`s0 & 0x1F` is `s0 % 32`, `x << 6` is `x * 64`, and `|` joins disjoint bit
fields, so it is `+`; the branch-free mask of the `x >= as` case is written
as the choice it computes. -/
def DecodeRuneInString (s : Bytes) : Nat × Nat :=
  match s with
  | [] => (RuneError, 0)
  | s0 :: t =>
    let x := first s0
    if x ≥ 0xF0 then
      (if x = 0xF0 then s0 else RuneError, 1)
    else
      let sz := x % 8
      let accept := acceptRanges (x / 16)
      if s.length < sz then (RuneError, 1)
      else
        match t with
        | [] => (RuneError, 1)
        | s1 :: t1 =>
          if s1 < accept.1 ∨ accept.2 < s1 then (RuneError, 1)
          else if sz ≤ 2 then ((s0 % 32) * 64 + s1 % 64, 2)
          else
            match t1 with
            | [] => (RuneError, 1)
            | s2 :: t2 =>
              if s2 < 0x80 ∨ 0xBF < s2 then (RuneError, 1)
              else if sz ≤ 3 then ((s0 % 16) * 4096 + (s1 % 64) * 64 + s2 % 64, 3)
              else
                match t2 with
                | [] => (RuneError, 1)
                | s3 :: _ =>
                  if s3 < 0x80 ∨ 0xBF < s3 then (RuneError, 1)
                  else ((s0 % 8) * 262144 + (s1 % 64) * 4096 + (s2 % 64) * 64 + s3 % 64, 4)

/-- Go `utf8.AppendRune` on an empty buffer (`utf8.EncodeRune`): the UTF-8
encoding of the rune; a surrogate or a value past `MaxRune` is encoded as
`RuneError`. -/
def EncodeRune (r : Nat) : Bytes :=
  if r ≤ 0x7F then [r]
  else if r ≤ 0x7FF then [0xC0 + r / 64, 0x80 + r % 64]
  else if r > MaxRune ∨ (0xD800 ≤ r ∧ r ≤ 0xDFFF) then [0xEF, 0xBF, 0xBD]
  else if r ≤ 0xFFFF then [0xE0 + r / 4096, 0x80 + (r / 64) % 64, 0x80 + r % 64]
  else [0xF0 + r / 262144, 0x80 + (r / 4096) % 64, 0x80 + (r / 64) % 64, 0x80 + r % 64]

/-- The walk of Go `utf8.ValidString` over the string, in at most `fuel` steps:
ASCII bytes are passed over, at any other byte a rune is decoded, and the
string is rejected when the decoder reports an invalid encoding (width 1). -/
def validLoop : Nat → Bytes → Bool
  | 0, s => s.isEmpty
  | _ + 1, [] => true
  | fuel + 1, b :: rest =>
    if b < RuneSelf then validLoop fuel rest
    else
      let d := DecodeRuneInString (b :: rest)
      if d.2 = 1 then false else validLoop fuel ((b :: rest).drop d.2)

/-- Go `utf8.ValidString`: the string is a sequence of valid UTF-8 encodings. -/
def ValidString (s : Bytes) : Bool := validLoop s.length s

/-! ## encoding/json: Marshal -/

/-- Go `hex` of encoding/json: the digit of "0123456789abcdef" at index `n`. -/
def hex (n : Nat) : Nat := if n < 10 then 0x30 + n else 0x57 + n

/-- Go table `htmlSafeSet` of encoding/json: the ASCII bytes written without an
escape in a JSON string embedded in HTML: all from the space on except the
double quote, the ampersand, the angle brackets and the backslash. -/
def htmlSafeSet (b : Nat) : Bool :=
  decide (0x20 ≤ b ∧ b < 0x80 ∧ b ≠ 0x22 ∧ b ≠ 0x26 ∧ b ≠ 0x3C ∧ b ≠ 0x3E ∧ b ≠ 0x5C)

/-- What `appendString` writes for an ASCII byte that is not in `htmlSafeSet`
(the `switch b` of the source, as of Go 1.22; earlier releases write the
backspace and the form feed as `\u0008` and `\u000c`, which read back alike). -/
def escapeByte (b : Nat) : Bytes :=
  if b = 0x5C ∨ b = 0x22 then [0x5C, b]
  else if b = 0x08 then [0x5C, 0x62]
  else if b = 0x0C then [0x5C, 0x66]
  else if b = 0x0A then [0x5C, 0x6E]
  else if b = 0x0D then [0x5C, 0x72]
  else if b = 0x09 then [0x5C, 0x74]
  else [0x5C, 0x75, 0x30, 0x30, hex (b / 16), hex (b % 16)]

/-- The loop of Go `appendString` (encoding/json, `escapeHTML` set, as Marshal
sets it) over the rest of the source string: safe ASCII bytes and valid
multi-byte runes are copied, other ASCII bytes are escaped, an invalid byte is
written as the escape of U+FFFD, and U+2028 and U+2029 are escaped. The
source copies the unescaped stretch `src[start:i]` when it meets a byte to
escape; here each byte is written when it is passed. `fuel` bounds the number
of iterations. -/
def appendStringLoop : Nat → Bytes → Bytes
  | 0, _ => []
  | _ + 1, [] => []
  | fuel + 1, b :: rest =>
    if b < RuneSelf then
      if htmlSafeSet b then b :: appendStringLoop fuel rest
      else escapeByte b ++ appendStringLoop fuel rest
    else
      let d := DecodeRuneInString (b :: rest)
      if d.1 = RuneError ∧ d.2 = 1 then
        [0x5C, 0x75, 0x66, 0x66, 0x66, 0x64] ++ appendStringLoop fuel rest
      else if d.1 = 0x2028 ∨ d.1 = 0x2029 then
        [0x5C, 0x75, 0x32, 0x30, 0x32, hex (d.1 % 16)]
          ++ appendStringLoop fuel ((b :: rest).drop d.2)
      else
        (b :: rest).take d.2 ++ appendStringLoop fuel ((b :: rest).drop d.2)

/-- Go `appendString` on an empty buffer: the JSON string literal for `src`. -/
def appendString (src : Bytes) : Bytes :=
  [0x22] ++ appendStringLoop src.length src ++ [0x22]

/-- The fields of `Game` in declaration order, as the struct encoder walks them:
the JSON name from the struct tag and the field's value. -/
def Game.fields (g : Game) : List (String × Bytes) :=
  [("title", g.Title), ("genre", g.Genre), ("description", g.Description),
   ("rating", g.Rating), ("link", g.Link)]

/-- The loop of Go `structEncoder.encode`: before each field the byte `next`
(an opening brace first, a comma afterwards), then the quoted name and a
colon, then the string value. Returns the buffer and `next`. -/
def structLoop : List (String × Bytes) → Bytes → Nat → Bytes × Nat
  | [], e, next => (e, next)
  | (name, v) :: fs, e, next =>
    structLoop fs (e ++ [next] ++ (appendString (lit name) ++ [0x3A]) ++ appendString v) 0x2C

/-- Go `structEncoder.encode` on a `Game`, appending to the buffer `e`. -/
def structEncode (e : Bytes) (g : Game) : Bytes :=
  let r := structLoop g.fields e 0x7B
  if r.2 = 0x7B then r.1 ++ [0x7B, 0x7D] else r.1 ++ [0x7D]

/-- The loop of Go `arrayEncoder.encode`: the elements, a comma before each but
the first. `i` is the index of the next element. -/
def arrayLoop : List Game → Nat → Bytes → Bytes
  | [], _, e => e
  | g :: gs, i, e => arrayLoop gs (i + 1) (structEncode (if i > 0 then e ++ [0x2C] else e) g)

/-- Go `sliceEncoder.encode` on a `[]Game`: `null` for the nil slice, else the
bracketed elements. The empty list stands for the nil slice: `games` starts
nil and only grows by `append`, so it is never an empty non-nil slice. -/
def sliceEncode (games : List Game) : Bytes :=
  if games.isEmpty then lit "null"
  else arrayLoop games 0 [0x5B] ++ [0x5D]

/-- Go `json.Marshal` on a `[]Game`. A slice of structs of strings has no value
the encoder rejects, so no error is returned. -/
def Marshal (games : List Game) : Except String Bytes :=
  .ok (sliceEncode games)

/-! ## The handlers (game_handlers.go, lines 20-64)

A handler takes the current value of the package variable `games`, the response
writer and the request, and returns the new value of `games` and the writer.
The lines printed to the console on an error are not part of the state. -/

def getGameHandler (games : List Game) (w : ResponseWriter) (_r : Request) :
    List Game × ResponseWriter :=
  match Marshal games with
  | .error _ => (games, w.WriteHeader StatusInternalServerError)
  | .ok gameListBytes => (games, w.Write gameListBytes)

def createGameHandler (games : List Game) (w : ResponseWriter) (r : Request) :
    List Game × ResponseWriter :=
  let game := Game.zero
  match r.ParseForm with
  | .error _ => (games, w.WriteHeader StatusInternalServerError)
  | .ok form =>
    let game := { game with Title := form.Get (lit "title") }
    let game := { game with Genre := form.Get (lit "genre") }
    let game := { game with Description := form.Get (lit "description") }
    let game := { game with Rating := form.Get (lit "rating") }
    let game := { game with Link := form.Get (lit "link") }
    (games ++ [game], Redirect w r "/assets/" StatusFound)

/-! ## encoding/json: Unmarshal into a `[]Game`

The decoder reads the JSON texts that list `Game` objects: `null`, or an array
of objects whose members are the five tagged names, in any order and any
number of times, each with a string value. White space is allowed where JSON
allows it. Texts outside this fragment (other value types, names matched only
up to letter case, unknown names, which `encoding/json` skips) are rejected
with `none`. -/

/-- Go `isSpace` of encoding/json. -/
def isSpace (c : Nat) : Bool :=
  decide (c ≤ 0x20 ∧ (c = 0x20 ∨ c = 0x09 ∨ c = 0x0D ∨ c = 0x0A))

/-- The scanner passing over white space. -/
def skipSpace : Bytes → Bytes
  | [] => []
  | c :: rest => if isSpace c then skipSpace rest else c :: rest

/-- The value of one hexadecimal digit, as in the loop of Go `getu4`. -/
def hexValue (c : Nat) : Option Nat :=
  if 0x30 ≤ c ∧ c ≤ 0x39 then some (c - 0x30)
  else if 0x61 ≤ c ∧ c ≤ 0x66 then some (c - 0x61 + 10)
  else if 0x41 ≤ c ∧ c ≤ 0x46 then some (c - 0x41 + 10)
  else none

/-- Go `getu4`: the number written by a backslash, a `u` and four hexadecimal
digits at the start of `s`; `none` where the source returns -1. -/
def getu4 (s : Bytes) : Option Nat :=
  match s with
  | e :: u :: a :: b :: c :: d :: _ =>
    if e = 0x5C ∧ u = 0x75 then
      (hexValue a).bind fun a => (hexValue b).bind fun b =>
      (hexValue c).bind fun c => (hexValue d).bind fun d =>
        some (((a * 16 + b) * 16 + c) * 16 + d)
    else none
  | _ => none

/-- Go `utf16.IsSurrogate`. -/
def IsSurrogate (r : Nat) : Bool := decide (0xD800 ≤ r ∧ r < 0xE000)

/-- Go `utf16.DecodeRune`: the code point of a surrogate pair, U+FFFD when the
two are not a valid pair. -/
def utf16DecodeRune (r1 r2 : Nat) : Nat :=
  if 0xD800 ≤ r1 ∧ r1 < 0xDC00 ∧ 0xDC00 ≤ r2 ∧ r2 < 0xE000 then
    (r1 - 0xD800) * 1024 + (r2 - 0xDC00) + 0x10000
  else 0xFFFD

/-- The byte a one-letter escape stands for (the inner `switch` of Go
`unquoteBytes`, for the letters the scanner admits). -/
def unescape (e : Nat) : Option Nat :=
  if e = 0x22 ∨ e = 0x5C ∨ e = 0x2F then some e
  else if e = 0x62 then some 0x08
  else if e = 0x66 then some 0x0C
  else if e = 0x6E then some 0x0A
  else if e = 0x72 then some 0x0D
  else if e = 0x74 then some 0x09
  else none

/-- The result of the rest of the string with `piece` put in front. -/
def emit (piece : Bytes) (r : Option (Bytes × Bytes)) : Option (Bytes × Bytes) :=
  r.map fun p => (piece ++ p.1, p.2)

/-- The loop of Go `unquoteBytes`, run up to the closing quote (the scanner finds
it in the source): the text of a string literal whose opening quote has been
read, and the input after its closing quote. Escapes are replaced, ASCII
bytes are copied, other bytes are decoded as a rune and written back as
UTF-8; a control character, a bad escape or the end of the input fail. `fuel`
bounds the number of iterations. -/
def unquoteLoop : Nat → Bytes → Option (Bytes × Bytes)
  | 0, _ => none
  | _ + 1, [] => none
  | fuel + 1, c :: rest =>
    if c = 0x22 then some ([], rest)
    else if c = 0x5C then
      match rest with
      | [] => none
      | e :: rest1 =>
        if e = 0x75 then
          match getu4 (c :: rest) with
          | none => none
          | some rr =>
            let after := rest1.drop 4
            if IsSurrogate rr then
              match getu4 after with
              | none => emit (EncodeRune 0xFFFD) (unquoteLoop fuel after)
              | some rr1 =>
                if utf16DecodeRune rr rr1 ≠ 0xFFFD then
                  emit (EncodeRune (utf16DecodeRune rr rr1)) (unquoteLoop fuel (after.drop 6))
                else emit (EncodeRune 0xFFFD) (unquoteLoop fuel after)
            else emit (EncodeRune rr) (unquoteLoop fuel after)
        else
          match unescape e with
          | none => none
          | some b => emit [b] (unquoteLoop fuel rest1)
    else if c < 0x20 then none
    else if c < RuneSelf then emit [c] (unquoteLoop fuel rest)
    else
      let d := DecodeRuneInString (c :: rest)
      emit (EncodeRune d.1) (unquoteLoop fuel ((c :: rest).drop d.2))

/-- A string literal at the start of `s`: its text and the input after it. -/
def stringLit (s : Bytes) : Option (Bytes × Bytes) :=
  match s with
  | [] => none
  | c :: rest => if c = 0x22 then unquoteLoop (rest.length + 1) rest else none

/-- The input after the byte `b`, which must come first. -/
def expect (b : Nat) (s : Bytes) : Option Bytes :=
  match s with
  | [] => none
  | c :: rest => if c = b then some rest else none

/-- The object's member stored in the field of `Game` whose tag is the name. -/
def setField (g : Game) (key val : Bytes) : Option Game :=
  if key = lit "title" then some { g with Title := val }
  else if key = lit "genre" then some { g with Genre := val }
  else if key = lit "description" then some { g with Description := val }
  else if key = lit "rating" then some { g with Rating := val }
  else if key = lit "link" then some { g with Link := val }
  else none

/-- The loop of the decoder's `object` on a `Game`: a name, a colon, a string
value, stored in the record, then a comma and the next member or the closing
brace. Returns the record and the input after the brace. -/
def objectLoop : Nat → Game → Bytes → Option (Game × Bytes)
  | 0, _, _ => none
  | fuel + 1, g, s => do
    let (key, s) ← stringLit (skipSpace s)
    let s ← expect 0x3A (skipSpace s)
    let (val, s) ← stringLit (skipSpace s)
    let g ← setField g key val
    match skipSpace s with
    | [] => none
    | c :: s => if c = 0x7D then some (g, s) else if c = 0x2C then objectLoop fuel g s else none

/-- One object decoded into a fresh `Game`. -/
def object (s : Bytes) : Option (Game × Bytes) := do
  let s ← expect 0x7B s
  match skipSpace s with
  | [] => none
  | c :: s1 => if c = 0x7D then some (Game.zero, s1) else objectLoop (s.length + 1) Game.zero (c :: s1)

/-- The loop of the decoder's `array`: an object, then a comma and the next
element or the closing bracket. -/
def arrayElems : Nat → Bytes → Option (List Game × Bytes)
  | 0, _ => none
  | fuel + 1, s => do
    let (g, s) ← object (skipSpace s)
    match skipSpace s with
    | [] => none
    | c :: s =>
      if c = 0x5D then some ([g], s)
      else if c = 0x2C then (arrayElems fuel s).map fun p => (g :: p.1, p.2)
      else none

/-- Go `json.Unmarshal(data, &out)` for `var out []Game`, on the fragment
described above: `null` leaves the nil slice, an array gives its objects in
order; anything after the value but white space is an error. -/
def Unmarshal (data : Bytes) : Option (List Game) :=
  let s := skipSpace data
  if s.take 4 = lit "null" then
    if skipSpace (s.drop 4) = [] then some [] else none
  else do
    let s ← expect 0x5B s
    match skipSpace s with
    | [] => none
    | c :: s1 =>
      if c = 0x5D then
        if skipSpace s1 = [] then some [] else none
      else do
        let (gs, rest) ← arrayElems (s.length + 1) (c :: s1)
        if skipSpace rest = [] then some gs else none

/-! ## The response text, spelled out -/

/-- One member of a JSON object: the quoted name, a colon, the string literal of
the value. -/
def memberText (name : String) (v : Bytes) : Bytes :=
  lit ("\"" ++ name ++ "\":") ++ appendString v

/-- The JSON object of one game: its five members in the order title, genre,
description, rating, link, separated by commas, in braces. -/
def objectText (g : Game) : Bytes :=
  [0x7B] ++ memberText "title" g.Title ++ [0x2C] ++ memberText "genre" g.Genre ++ [0x2C]
    ++ memberText "description" g.Description ++ [0x2C] ++ memberText "rating" g.Rating ++ [0x2C]
    ++ memberText "link" g.Link ++ [0x7D]

/-- The JSON array of the games: their objects in order, separated by commas, in
brackets. -/
def arrayText (games : List Game) : Bytes :=
  [0x5B] ++ List.intercalate [0x2C] (games.map objectText) ++ [0x5D]

/-- The five fields of the game are valid UTF-8. -/
def Game.Valid (g : Game) : Bool :=
  ValidString g.Title && ValidString g.Genre && ValidString g.Description
    && ValidString g.Rating && ValidString g.Link

/-- The first value the form binds to the name; `none` when the name is absent
or bound to no value. -/
def firstValue (form : Values) (name : Bytes) : Option Bytes :=
  (form.lookup name).bind List.head?

/-- The record `createGameHandler` builds from a parsed form. -/
def gameOfForm (form : Values) : Game :=
  ⟨form.Get (lit "title"), form.Get (lit "genre"), form.Get (lit "description"),
   form.Get (lit "rating"), form.Get (lit "link")⟩

/-- The value of `games` after the handler has served the requests in order. -/
def createAll (games : List Game) : List Request → List Game
  | [] => games
  | r :: rs => createAll (createGameHandler games NewRecorder r).1 rs

/-! ## Sample inputs -/

/-- The form of scenario B of the specification. -/
def chessForm : Values :=
  [(lit "title", [lit "Chess"]), (lit "genre", [lit "Board"]), (lit "description", [lit "Classic"]),
   (lit "rating", [lit "5"]), (lit "link", [lit "http://x"])]

/-- The record scenario B stores. -/
def chess : Game := ⟨lit "Chess", lit "Board", lit "Classic", lit "5", lit "http://x"⟩

/-- A POST whose form decodes to `chessForm`. -/
def chessPost : Request := ⟨"POST", .ok chessForm⟩

/-- A GET without parameters. -/
def plainGet : Request := ⟨"GET", .ok []⟩

/-- A POST whose body does not decode, as `title=%zz` does not. -/
def badPost : Request := ⟨"POST", .error "invalid URL escape \"%zz\""⟩

/-- A form whose title is the single byte 0xFF, as the body `title=%ff`
decodes to: not valid UTF-8. -/
def latin1Form : Values := [(lit "title", [[0xFF]])]

/-- A POST whose form decodes to `latin1Form`. -/
def latin1Post : Request := ⟨"POST", .ok latin1Form⟩

/-- A store whose only record has the Latin-1 bytes of "h\u00e9" as its link:
0xE9 is not valid UTF-8 there. -/
def latin1Store : List Game := [⟨lit "Chess", lit "Board", lit "Classic", lit "5", [0x68, 0xE9]⟩]

/-- The store of `latin1Store` with U+FFFD in UTF-8 in the place of the byte
0xE9. -/
def replacedStore : List Game :=
  [⟨lit "Chess", lit "Board", lit "Classic", lit "5", [0x68, 0xEF, 0xBF, 0xBD]⟩]

/-! ## Lemmas: UTF-8 -/

theorem first_cases (b : Nat) (hb : 0x80 ≤ b) :
    (first b = 0xF1) ∨ (first b = 0x02 ∧ 0xC2 ≤ b ∧ b < 0xE0) ∨ (first b = 0x13 ∧ b = 0xE0)
    ∨ (first b = 0x03 ∧ 0xE1 ≤ b ∧ b < 0xF0 ∧ b ≠ 0xED) ∨ (first b = 0x23 ∧ b = 0xED)
    ∨ (first b = 0x34 ∧ b = 0xF0) ∨ (first b = 0x04 ∧ 0xF1 ≤ b ∧ b < 0xF4)
    ∨ (first b = 0x44 ∧ b = 0xF4) := by
  unfold first
  split_ifs <;> simp <;> omega

theorem decode_one (b : Nat) (hb : 0x80 ≤ b) : DecodeRuneInString [b] = (RuneError, 1) := by
  rcases first_cases b hb with hf | ⟨hf, _⟩ | ⟨hf, _⟩ | ⟨hf, _⟩ | ⟨hf, _⟩ | ⟨hf, _⟩ | ⟨hf, _⟩ | ⟨hf, _⟩ <;>
  simp [DecodeRuneInString, hf]

theorem decode_bad (b : Nat) (t : Bytes) (hf : first b = 0xF1) :
    DecodeRuneInString (b :: t) = (RuneError, 1) := by
  simp [DecodeRuneInString, hf]

theorem decode_two (b s1 : Nat) (t : Bytes) (hf : first b = 0x02) :
    DecodeRuneInString (b :: s1 :: t) =
      if s1 < 0x80 ∨ 0xBF < s1 then (RuneError, 1) else ((b % 32) * 64 + s1 % 64, 2) := by
  simp [DecodeRuneInString, hf, acceptRanges]

theorem decode_three (b s1 s2 f lo hi : Nat) (t : Bytes) (hf : first b = f) (hsz : f % 8 = 3) (hlt : f < 0xF0)
    (hacc : acceptRanges (f / 16) = (lo, hi)) :
    DecodeRuneInString (b :: s1 :: s2 :: t) =
      if s1 < lo ∨ hi < s1 then (RuneError, 1)
      else if s2 < 0x80 ∨ 0xBF < s2 then (RuneError, 1)
      else ((b % 16) * 4096 + (s1 % 64) * 64 + s2 % 64, 3) := by
  have : ¬ 240 ≤ f := by omega
  simp [DecodeRuneInString, hf, hsz, hacc, this]

theorem decode_three_short (b s1 f : Nat) (hf : first b = f) (hsz : f % 8 = 3) (hlt : f < 0xF0) :
    DecodeRuneInString [b, s1] = (RuneError, 1) := by
  have : ¬ 240 ≤ f := by omega
  simp [DecodeRuneInString, hf, hsz, this]

theorem decode_four (b s1 s2 s3 f lo hi : Nat) (t : Bytes) (hf : first b = f) (hsz : f % 8 = 4) (hlt : f < 0xF0)
    (hacc : acceptRanges (f / 16) = (lo, hi)) :
    DecodeRuneInString (b :: s1 :: s2 :: s3 :: t) =
      if s1 < lo ∨ hi < s1 then (RuneError, 1)
      else if s2 < 0x80 ∨ 0xBF < s2 then (RuneError, 1)
      else if s3 < 0x80 ∨ 0xBF < s3 then (RuneError, 1)
      else ((b % 8) * 262144 + (s1 % 64) * 4096 + (s2 % 64) * 64 + s3 % 64, 4) := by
  have : ¬ 240 ≤ f := by omega
  simp [DecodeRuneInString, hf, hsz, hacc, this]

theorem decode_four_short (b f : Nat) (t : Bytes) (hf : first b = f) (hsz : f % 8 = 4) (hlt : f < 0xF0)
    (ht : t.length < 3) :
    DecodeRuneInString (b :: t) = (RuneError, 1) := by
  have : ¬ 240 ≤ f := by omega
  rcases t with _ | ⟨s1, _ | ⟨s2, _ | ⟨s3, t3⟩⟩⟩ <;> simp [DecodeRuneInString, hf, hsz, this] at ht ⊢
  omega

theorem encode_two (b s1 : Nat) (h1 : 0xC2 ≤ b) (h2 : b < 0xE0) (h3 : 0x80 ≤ s1) (h4 : s1 ≤ 0xBF) :
    EncodeRune ((b % 32) * 64 + s1 % 64) = [b, s1] := by
  have e1 : ¬ (b % 32) * 64 + s1 % 64 ≤ 0x7F := by omega
  have e2 : (b % 32) * 64 + s1 % 64 ≤ 0x7FF := by omega
  have e3 : 0xC0 + ((b % 32) * 64 + s1 % 64) / 64 = b := by omega
  have e4 : 0x80 + ((b % 32) * 64 + s1 % 64) % 64 = s1 := by omega
  rw [EncodeRune, if_neg e1, if_pos e2, e3, e4]

theorem encode_three (b s1 s2 : Nat) (h1 : 0xE0 ≤ b) (h2 : b < 0xF0) (h3 : 0x80 ≤ s1) (h4 : s1 ≤ 0xBF)
    (h5 : b = 0xE0 → 0xA0 ≤ s1) (h6 : b = 0xED → s1 ≤ 0x9F) (h7 : 0x80 ≤ s2) (h8 : s2 ≤ 0xBF) :
    EncodeRune ((b % 16) * 4096 + (s1 % 64) * 64 + s2 % 64) = [b, s1, s2] := by
  have e1 : ¬ (b % 16) * 4096 + (s1 % 64) * 64 + s2 % 64 ≤ 0x7F := by omega
  have e2 : ¬ (b % 16) * 4096 + (s1 % 64) * 64 + s2 % 64 ≤ 0x7FF := by omega
  have e3 : ¬ ((b % 16) * 4096 + (s1 % 64) * 64 + s2 % 64 > MaxRune
      ∨ (0xD800 ≤ (b % 16) * 4096 + (s1 % 64) * 64 + s2 % 64
        ∧ (b % 16) * 4096 + (s1 % 64) * 64 + s2 % 64 ≤ 0xDFFF)) := by
    unfold MaxRune; omega
  have e4 : (b % 16) * 4096 + (s1 % 64) * 64 + s2 % 64 ≤ 0xFFFF := by omega
  have e5 : 0xE0 + ((b % 16) * 4096 + (s1 % 64) * 64 + s2 % 64) / 4096 = b := by omega
  have e6 : 0x80 + (((b % 16) * 4096 + (s1 % 64) * 64 + s2 % 64) / 64) % 64 = s1 := by omega
  have e7 : 0x80 + ((b % 16) * 4096 + (s1 % 64) * 64 + s2 % 64) % 64 = s2 := by omega
  rw [EncodeRune, if_neg e1, if_neg e2, if_neg e3, if_pos e4, e5, e6, e7]

theorem encode_four (b s1 s2 s3 : Nat) (h1 : 0xF0 ≤ b) (h2 : b ≤ 0xF4) (h3 : 0x80 ≤ s1) (h4 : s1 ≤ 0xBF)
    (h5 : b = 0xF0 → 0x90 ≤ s1) (h6 : b = 0xF4 → s1 ≤ 0x8F) (h7 : 0x80 ≤ s2) (h8 : s2 ≤ 0xBF)
    (h9 : 0x80 ≤ s3) (h10 : s3 ≤ 0xBF) :
    EncodeRune ((b % 8) * 262144 + (s1 % 64) * 4096 + (s2 % 64) * 64 + s3 % 64) = [b, s1, s2, s3] := by
  have e1 : ¬ (b % 8) * 262144 + (s1 % 64) * 4096 + (s2 % 64) * 64 + s3 % 64 ≤ 0x7F := by omega
  have e2 : ¬ (b % 8) * 262144 + (s1 % 64) * 4096 + (s2 % 64) * 64 + s3 % 64 ≤ 0x7FF := by omega
  have e3 : ¬ ((b % 8) * 262144 + (s1 % 64) * 4096 + (s2 % 64) * 64 + s3 % 64 > MaxRune
      ∨ (0xD800 ≤ (b % 8) * 262144 + (s1 % 64) * 4096 + (s2 % 64) * 64 + s3 % 64
        ∧ (b % 8) * 262144 + (s1 % 64) * 4096 + (s2 % 64) * 64 + s3 % 64 ≤ 0xDFFF)) := by
    unfold MaxRune; omega
  have e4 : ¬ (b % 8) * 262144 + (s1 % 64) * 4096 + (s2 % 64) * 64 + s3 % 64 ≤ 0xFFFF := by omega
  have e5 : 0xF0 + ((b % 8) * 262144 + (s1 % 64) * 4096 + (s2 % 64) * 64 + s3 % 64) / 262144 = b := by omega
  have e6 : 0x80 + (((b % 8) * 262144 + (s1 % 64) * 4096 + (s2 % 64) * 64 + s3 % 64) / 4096) % 64 = s1 := by omega
  have e7 : 0x80 + (((b % 8) * 262144 + (s1 % 64) * 4096 + (s2 % 64) * 64 + s3 % 64) / 64) % 64 = s2 := by omega
  have e8 : 0x80 + ((b % 8) * 262144 + (s1 % 64) * 4096 + (s2 % 64) * 64 + s3 % 64) % 64 = s3 := by omega
  rw [EncodeRune, if_neg e1, if_neg e2, if_neg e3, if_neg e4, e5, e6, e7, e8]

theorem decode_valid_three (b f lo hi : Nat) (t : Bytes) (hb : 0x80 ≤ b) (hf : first b = f)
    (hsz : f % 8 = 3) (hlt : f < 0xF0) (hacc : acceptRanges (f / 16) = (lo, hi))
    (henc : ∀ s1 s2, ¬ (s1 < lo ∨ hi < s1) → ¬ (s2 < 0x80 ∨ 0xBF < s2) →
      EncodeRune ((b % 16) * 4096 + (s1 % 64) * 64 + s2 % 64) = [b, s1, s2])
    (h : (DecodeRuneInString (b :: t)).2 ≠ 1) :
    ∃ p q, t = p ++ q ∧ (DecodeRuneInString (b :: t)).2 = p.length + 1
      ∧ EncodeRune (DecodeRuneInString (b :: t)).1 = b :: p
      ∧ ∀ X, DecodeRuneInString (b :: (p ++ X)) = DecodeRuneInString (b :: t) := by
  rcases t with _ | ⟨s1, _ | ⟨s2, t⟩⟩
  · rw [decode_one b hb] at h; simp at h
  · rw [decode_three_short b s1 f hf hsz hlt] at h; simp at h
  · rw [decode_three b s1 s2 f lo hi t hf hsz hlt hacc] at h ⊢
    by_cases hc : s1 < lo ∨ hi < s1
    · simp [hc] at h
    · by_cases hc2 : s2 < 0x80 ∨ 0xBF < s2
      · simp [hc, hc2] at h
      · refine ⟨[s1, s2], t, rfl, ?_, ?_, ?_⟩
        · simp [hc, hc2]
        · rw [if_neg hc, if_neg hc2]; exact henc s1 s2 hc hc2
        · intro X; exact decode_three b s1 s2 f lo hi X hf hsz hlt hacc

theorem decode_valid_four (b f lo hi : Nat) (t : Bytes) (hf : first b = f)
    (hsz : f % 8 = 4) (hlt : f < 0xF0) (hacc : acceptRanges (f / 16) = (lo, hi))
    (henc : ∀ s1 s2 s3, ¬ (s1 < lo ∨ hi < s1) → ¬ (s2 < 0x80 ∨ 0xBF < s2) →
      ¬ (s3 < 0x80 ∨ 0xBF < s3) →
      EncodeRune ((b % 8) * 262144 + (s1 % 64) * 4096 + (s2 % 64) * 64 + s3 % 64) = [b, s1, s2, s3])
    (h : (DecodeRuneInString (b :: t)).2 ≠ 1) :
    ∃ p q, t = p ++ q ∧ (DecodeRuneInString (b :: t)).2 = p.length + 1
      ∧ EncodeRune (DecodeRuneInString (b :: t)).1 = b :: p
      ∧ ∀ X, DecodeRuneInString (b :: (p ++ X)) = DecodeRuneInString (b :: t) := by
  by_cases hlen : t.length < 3
  · rw [decode_four_short b f t hf hsz hlt hlen] at h; simp at h
  · rcases t with _ | ⟨s1, _ | ⟨s2, _ | ⟨s3, t⟩⟩⟩
    · simp at hlen
    · simp at hlen
    · simp at hlen
    · rw [decode_four b s1 s2 s3 f lo hi t hf hsz hlt hacc] at h ⊢
      by_cases hc : s1 < lo ∨ hi < s1
      · simp [hc] at h
      · by_cases hc2 : s2 < 0x80 ∨ 0xBF < s2
        · simp [hc, hc2] at h
        · by_cases hc3 : s3 < 0x80 ∨ 0xBF < s3
          · simp [hc, hc2, hc3] at h
          · refine ⟨[s1, s2, s3], t, rfl, ?_, ?_, ?_⟩
            · simp [hc, hc2, hc3]
            · rw [if_neg hc, if_neg hc2, if_neg hc3]; exact henc s1 s2 s3 hc hc2 hc3
            · intro X; exact decode_four b s1 s2 s3 f lo hi X hf hsz hlt hacc

/-- A valid multi-byte sequence at the head of a string: the decoder's width
covers `b` and a block `p`, encoding the decoded rune gives these bytes back,
and decoding looks at nothing after them. -/
theorem decode_valid (b : Nat) (t : Bytes) (hb : 0x80 ≤ b)
    (h : (DecodeRuneInString (b :: t)).2 ≠ 1) :
    ∃ p q, t = p ++ q ∧ (DecodeRuneInString (b :: t)).2 = p.length + 1
      ∧ EncodeRune (DecodeRuneInString (b :: t)).1 = b :: p
      ∧ ∀ X, DecodeRuneInString (b :: (p ++ X)) = DecodeRuneInString (b :: t) := by
  rcases first_cases b hb with hf | ⟨hf, h1⟩ | ⟨hf, h1⟩ | ⟨hf, h1⟩ | ⟨hf, h1⟩ | ⟨hf, h1⟩ | ⟨hf, h1⟩ | ⟨hf, h1⟩
  · rw [decode_bad b t hf] at h; simp at h
  · rcases t with _ | ⟨s1, t⟩
    · rw [decode_one b hb] at h; simp at h
    · rw [decode_two b s1 t hf] at h ⊢
      by_cases hc : s1 < 0x80 ∨ 0xBF < s1
      · simp [hc] at h
      · refine ⟨[s1], t, rfl, ?_, ?_, ?_⟩
        · simp [hc]
        · rw [if_neg hc]; exact encode_two b s1 h1.1 h1.2 (by omega) (by omega)
        · intro X; exact decode_two b s1 X hf
  · exact decode_valid_three b 0x13 0xA0 0xBF t hb hf (by norm_num) (by norm_num) (by simp [acceptRanges])
      (fun s1 s2 c1 c2 => encode_three b s1 s2 (by omega) (by omega) (by omega) (by omega)
        (by omega) (by omega) (by omega) (by omega)) h
  · exact decode_valid_three b 0x03 0x80 0xBF t hb hf (by norm_num) (by norm_num) (by simp [acceptRanges])
      (fun s1 s2 c1 c2 => encode_three b s1 s2 (by omega) (by omega) (by omega) (by omega)
        (by omega) (by omega) (by omega) (by omega)) h
  · exact decode_valid_three b 0x23 0x80 0x9F t hb hf (by norm_num) (by norm_num) (by simp [acceptRanges])
      (fun s1 s2 c1 c2 => encode_three b s1 s2 (by omega) (by omega) (by omega) (by omega)
        (by omega) (by omega) (by omega) (by omega)) h
  · exact decode_valid_four b 0x34 0x90 0xBF t hf (by norm_num) (by norm_num) (by simp [acceptRanges])
      (fun s1 s2 s3 c1 c2 c3 => encode_four b s1 s2 s3 (by omega) (by omega) (by omega) (by omega)
        (by omega) (by omega) (by omega) (by omega) (by omega) (by omega)) h
  · exact decode_valid_four b 0x04 0x80 0xBF t hf (by norm_num) (by norm_num) (by simp [acceptRanges])
      (fun s1 s2 s3 c1 c2 c3 => encode_four b s1 s2 s3 (by omega) (by omega) (by omega) (by omega)
        (by omega) (by omega) (by omega) (by omega) (by omega) (by omega)) h
  · exact decode_valid_four b 0x44 0x80 0x8F t hf (by norm_num) (by norm_num) (by simp [acceptRanges])
      (fun s1 s2 s3 c1 c2 c3 => encode_four b s1 s2 s3 (by omega) (by omega) (by omega) (by omega)
        (by omega) (by omega) (by omega) (by omega) (by omega) (by omega)) h

theorem decode_size_pos (b : Nat) (t : Bytes) : 1 ≤ (DecodeRuneInString (b :: t)).2 := by
  by_cases hb : 0x80 ≤ b
  · by_cases h : (DecodeRuneInString (b :: t)).2 = 1
    · omega
    · obtain ⟨p, _, _, hsz, _, _⟩ := decode_valid b t hb h
      omega
  · have hf : first b = 0xF0 := by unfold first; rw [if_pos (by omega)]
    simp [DecodeRuneInString, hf]

/-- The encoder's string loop never runs out of steps: with at least as many
steps as the string has bytes, its result does not depend on their number. -/
theorem appendStringLoop_fuel : ∀ (n m : Nat) (s : Bytes), s.length ≤ n → s.length ≤ m →
    appendStringLoop n s = appendStringLoop m s := by
  intro n
  induction n with
  | zero =>
    intro m s hn _
    have : s = [] := List.length_eq_zero.mp (by omega)
    subst this
    cases m <;> rfl
  | succ n ih =>
    intro m s hn hm
    rcases s with _ | ⟨b, t⟩
    · cases m <;> rfl
    · obtain ⟨m, rfl⟩ : ∃ k, m = k + 1 := ⟨m - 1, by simp at hm; omega⟩
      have hn' : t.length ≤ n := by simpa using hn
      have hm' : t.length ≤ m := by simpa using hm
      have hpos := decode_size_pos b t
      have hd : ((b :: t).drop (DecodeRuneInString (b :: t)).2).length ≤ t.length := by
        simp only [List.length_drop, List.length_cons]; omega
      simp only [appendStringLoop]
      rw [ih m t hn' hm', ih m _ (by omega) (by omega)]

/-! ## Lemmas: the string literal -/

theorem hexValue_hex (n : Nat) (h : n < 16) : hexValue (hex n) = some n := by
  unfold hex hexValue
  by_cases h10 : n < 10
  · rw [if_pos h10, if_pos (by omega)]; congr 1; omega
  · rw [if_neg h10, if_neg (by omega), if_pos (by omega)]; congr 1; omega

theorem getu4_low (b : Nat) (Y : Bytes) (hb : b < 0x80) :
    getu4 (0x5C :: 0x75 :: 0x30 :: 0x30 :: hex (b / 16) :: hex (b % 16) :: Y) = some b := by
  have h0 : hexValue 0x30 = some 0 := by decide
  simp only [getu4, h0, hexValue_hex (b / 16) (by omega), hexValue_hex (b % 16) (by omega),
    Option.some_bind, and_self, if_true]
  congr 1; omega

theorem emit_some (piece out rest : Bytes) : emit piece (some (out, rest)) = some (piece ++ out, rest) := rfl

theorem unquoteLoop_escapeByte (b f : Nat) (Y : Bytes) (hb : b < 0x80) :
    unquoteLoop (f + 1) (escapeByte b ++ Y) = emit [b] (unquoteLoop f Y) := by
  unfold escapeByte
  split_ifs with h1 h2 h3 h4 h5 h6
  · rcases h1 with h1 | h1 <;> subst h1 <;> simp [unquoteLoop, unescape]
  · subst h2; simp [unquoteLoop, unescape]
  · subst h3; simp [unquoteLoop, unescape]
  · subst h4; simp [unquoteLoop, unescape]
  · subst h5; simp [unquoteLoop, unescape]
  · subst h6; simp [unquoteLoop, unescape]
  · have hs : IsSurrogate b = false := by simp [IsSurrogate]; omega
    have he : EncodeRune b = [b] := by rw [EncodeRune, if_pos (by omega)]
    simp [unquoteLoop, getu4_low b Y hb, hs, he]

theorem unquoteLoop_ascii (f c : Nat) (Y : Bytes) (h1 : c ≠ 0x22) (h2 : c ≠ 0x5C) (h3 : 0x20 ≤ c)
    (h4 : c < 0x80) : unquoteLoop (f + 1) (c :: Y) = emit [c] (unquoteLoop f Y) := by
  have e3 : ¬ c < 0x20 := by omega
  simp [unquoteLoop, h1, h2, e3, RuneSelf, h4]

theorem unquoteLoop_rune (f c : Nat) (Y : Bytes) (h : 0x80 ≤ c) :
    unquoteLoop (f + 1) (c :: Y)
      = emit (EncodeRune (DecodeRuneInString (c :: Y)).1)
          (unquoteLoop f ((c :: Y).drop (DecodeRuneInString (c :: Y)).2)) := by
  have e1 : ¬ c = 0x22 := by omega
  have e2 : ¬ c = 0x5C := by omega
  have e3 : ¬ c < 0x20 := by omega
  have e4 : ¬ c < 0x80 := by omega
  simp only [unquoteLoop, if_neg e1, if_neg e2, if_neg e3, RuneSelf, if_neg e4]

theorem unquoteLoop_u (f rr : Nat) (Y : Bytes) (hget : getu4 (0x5C :: 0x75 :: Y) = some rr)
    (hs : IsSurrogate rr = false) :
    unquoteLoop (f + 1) (0x5C :: 0x75 :: Y) = emit (EncodeRune rr) (unquoteLoop f (Y.drop 4)) := by
  simp [unquoteLoop, hget, hs]

theorem getu4_2028 (Y : Bytes) :
    getu4 (0x5C :: 0x75 :: 0x32 :: 0x30 :: 0x32 :: hex (0x2028 % 16) :: Y) = some 0x2028 := by
  simp [getu4, hexValue, hex]

theorem getu4_2029 (Y : Bytes) :
    getu4 (0x5C :: 0x75 :: 0x32 :: 0x30 :: 0x32 :: hex (0x2029 % 16) :: Y) = some 0x2029 := by
  simp [getu4, hexValue, hex]

theorem length_escapeByte_pos (b : Nat) : 0 < (escapeByte b).length := by
  unfold escapeByte; split_ifs <;> simp

/-- The decoder's string loop undoes the encoder's on valid UTF-8. -/
theorem unquoteLoop_appendStringLoop : ∀ (n : Nat) (s : Bytes), s.length ≤ n → validLoop n s = true →
    ∀ (fuel : Nat) (rest : Bytes), (appendStringLoop n s).length < fuel →
      unquoteLoop fuel (appendStringLoop n s ++ 0x22 :: rest) = some (s, rest) := by
  intro n
  induction n with
  | zero =>
    intro s hs _ fuel rest hfuel
    have : s = [] := List.length_eq_zero.mp (by omega)
    subst this
    obtain ⟨f, rfl⟩ : ∃ f, fuel = f + 1 := ⟨fuel - 1, by omega⟩
    simp [appendStringLoop, unquoteLoop]
  | succ n ih =>
    intro s hs hv fuel rest hfuel
    obtain ⟨f, rfl⟩ : ∃ f, fuel = f + 1 := ⟨fuel - 1, by omega⟩
    rcases s with _ | ⟨b, t⟩
    · simp [appendStringLoop, unquoteLoop]
    · have hlen : t.length ≤ n := by simpa using hs
      by_cases hb : b < RuneSelf
      · have hb' : b < 0x80 := hb
        have hvt : validLoop n t = true := by simpa [validLoop, hb] using hv
        by_cases hsafe : htmlSafeSet b = true
        · have hout : appendStringLoop (n + 1) (b :: t) = b :: appendStringLoop n t := by
            simp [appendStringLoop, hb, hsafe]
          rw [hout] at hfuel ⊢
          have hf : (appendStringLoop n t).length < f := by simpa using hfuel
          have hsafe' := hsafe
          simp only [htmlSafeSet, decide_eq_true_eq] at hsafe'
          have e1 : ¬ b = 0x22 := by omega
          have e2 : ¬ b = 0x5C := by omega
          have e3 : ¬ b < 0x20 := by omega
          rw [List.cons_append, unquoteLoop_ascii f b _ e1 e2 (by omega) hb',
            ih t hlen hvt f rest hf]; rfl
        · have hout : appendStringLoop (n + 1) (b :: t) = escapeByte b ++ appendStringLoop n t := by
            simp [appendStringLoop, hb, hsafe]
          rw [hout] at hfuel ⊢
          have hpos := length_escapeByte_pos b
          have hf : (appendStringLoop n t).length < f := by
            simp only [List.length_append] at hfuel; omega
          rw [List.append_assoc, unquoteLoop_escapeByte b f _ hb', ih t hlen hvt f rest hf]; rfl
      · have hb' : 0x80 ≤ b := by simp only [RuneSelf] at hb; omega
        have hv' : (DecodeRuneInString (b :: t)).2 ≠ 1
            ∧ validLoop n ((b :: t).drop (DecodeRuneInString (b :: t)).2) = true := by
          simpa [validLoop, hb] using hv
        obtain ⟨p, q, hpq, hsz, henc, hdec⟩ := decode_valid b t hb' hv'.1
        have hdrop : (b :: t).drop (DecodeRuneInString (b :: t)).2 = q := by
          rw [hsz, hpq, List.drop_succ_cons]; exact List.drop_left' rfl
        have htake : (b :: t).take (DecodeRuneInString (b :: t)).2 = b :: p := by
          rw [hsz, hpq, List.take_succ_cons]; congr 1; exact List.take_left' rfl
        have hvq : validLoop n q = true := by rw [← hdrop]; exact hv'.2
        have hq : q.length ≤ n := by
          have : t.length = p.length + q.length := by rw [hpq, List.length_append]
          omega
        have hne : ¬ ((DecodeRuneInString (b :: t)).1 = RuneError ∧ (DecodeRuneInString (b :: t)).2 = 1) :=
          fun hh => hv'.1 hh.2
        by_cases hsep : (DecodeRuneInString (b :: t)).1 = 0x2028 ∨ (DecodeRuneInString (b :: t)).1 = 0x2029
        · have hout : appendStringLoop (n + 1) (b :: t)
              = [0x5C, 0x75, 0x32, 0x30, 0x32, hex ((DecodeRuneInString (b :: t)).1 % 16)]
                ++ appendStringLoop n q := by
            simp only [appendStringLoop, if_neg hb, if_neg hne, if_pos hsep, hdrop]
          rw [hout] at hfuel ⊢
          have hf : (appendStringLoop n q).length < f := by
            simp only [List.length_append, List.length_cons, List.length_nil] at hfuel; omega
          have hsur : IsSurrogate (DecodeRuneInString (b :: t)).1 = false := by
            rcases hsep with h | h <;> rw [h] <;> decide
          have hget : getu4 (0x5C :: 0x75 :: 0x32 :: 0x30 :: 0x32
              :: hex ((DecodeRuneInString (b :: t)).1 % 16) :: (appendStringLoop n q ++ 0x22 :: rest))
              = some (DecodeRuneInString (b :: t)).1 := by
            rcases hsep with h | h <;> rw [h]
            · exact getu4_2028 _
            · exact getu4_2029 _
          rw [show [0x5C, 0x75, 0x32, 0x30, 0x32, hex ((DecodeRuneInString (b :: t)).1 % 16)]
              ++ appendStringLoop n q ++ 0x22 :: rest
              = 0x5C :: 0x75 :: (0x32 :: 0x30 :: 0x32 :: hex ((DecodeRuneInString (b :: t)).1 % 16)
                :: (appendStringLoop n q ++ 0x22 :: rest)) by simp]
          rw [unquoteLoop_u f _ _ hget hsur, henc]
          simp [ih q hq hvq f rest hf, emit_some, hpq]
        · have hout : appendStringLoop (n + 1) (b :: t) = (b :: p) ++ appendStringLoop n q := by
            simp only [appendStringLoop, if_neg hb, if_neg hne, if_neg hsep, hdrop, htake]
          rw [hout] at hfuel ⊢
          have hf : (appendStringLoop n q).length < f := by
            simp only [List.length_append, List.length_cons] at hfuel; omega
          have hd := hdec (appendStringLoop n q ++ 0x22 :: rest)
          have hdrop2 : (b :: (p ++ (appendStringLoop n q ++ 0x22 :: rest))).drop (p.length + 1)
              = appendStringLoop n q ++ 0x22 :: rest := by
            rw [List.drop_succ_cons]; exact List.drop_left' rfl
          rw [List.append_assoc, List.cons_append, unquoteLoop_rune f b _ hb', hd, hsz, hdrop2, henc,
            ih q hq hvq f rest hf, emit_some, hpq]; rfl

theorem skipSpace_cons (c : Nat) (rest : Bytes) (h : isSpace c = false) :
    skipSpace (c :: rest) = c :: rest := by
  simp [skipSpace, h]

theorem appendString_eq (v : Bytes) :
    appendString v = 0x22 :: (appendStringLoop v.length v ++ [0x22]) := rfl

theorem stringLit_appendString (v rest : Bytes) (hv : ValidString v = true) :
    stringLit (appendString v ++ rest) = some (v, rest) := by
  have h := unquoteLoop_appendStringLoop v.length v (Nat.le_refl _) hv
    ((appendStringLoop v.length v ++ [0x22] ++ rest).length + 1) rest
    (by simp only [List.length_append]; omega)
  rw [appendString_eq, List.cons_append, stringLit, if_pos rfl]
  rw [show appendStringLoop v.length v ++ [0x22] ++ rest
      = appendStringLoop v.length v ++ 0x22 :: rest by simp] at h ⊢
  exact h

theorem skipSpace_appendString (v rest : Bytes) :
    skipSpace (appendString v ++ rest) = appendString v ++ rest := by
  rw [appendString_eq, List.cons_append]
  exact skipSpace_cons _ _ (by decide)

theorem objectLoop_member (fuel : Nat) (g g1 : Game) (name v rest : Bytes)
    (hname : ValidString name = true) (hv : ValidString v = true)
    (hset : setField g name v = some g1) :
    objectLoop (fuel + 1) g (appendString name ++ 0x3A :: (appendString v ++ rest))
      = match skipSpace rest with
        | [] => none
        | c :: s =>
          if c = 0x7D then some (g1, s) else if c = 0x2C then objectLoop fuel g1 s else none := by
  have h3A : skipSpace (0x3A :: (appendString v ++ rest)) = 0x3A :: (appendString v ++ rest) :=
    skipSpace_cons _ _ (by decide)
  simp only [objectLoop, skipSpace_appendString, stringLit_appendString _ _ hname, h3A, expect,
    stringLit_appendString _ _ hv, hset, Option.bind_eq_bind, Option.some_bind, if_true, bind, pure]

theorem objectLoop_member_comma (fuel : Nat) (g g1 : Game) (name v rest : Bytes)
    (hname : ValidString name = true) (hv : ValidString v = true)
    (hset : setField g name v = some g1) :
    objectLoop (fuel + 1) g (appendString name ++ 0x3A :: (appendString v ++ 0x2C :: rest))
      = objectLoop fuel g1 rest := by
  rw [objectLoop_member fuel g g1 name v _ hname hv hset, skipSpace_cons _ _ (by decide)]
  simp

theorem objectLoop_member_close (fuel : Nat) (g g1 : Game) (name v rest : Bytes)
    (hname : ValidString name = true) (hv : ValidString v = true)
    (hset : setField g name v = some g1) :
    objectLoop (fuel + 1) g (appendString name ++ 0x3A :: (appendString v ++ 0x7D :: rest))
      = some (g1, rest) := by
  rw [objectLoop_member fuel g g1 name v _ hname hv hset, skipSpace_cons _ _ (by decide)]
  simp

/-! ## Lemmas: objects and arrays -/

theorem structEncode_eq (e : Bytes) (g : Game) : structEncode e g = e ++ objectText g := by
  have k1 : appendString (lit "title") ++ [0x3A] = lit "\"title\":" := by decide
  have k2 : appendString (lit "genre") ++ [0x3A] = lit "\"genre\":" := by decide
  have k3 : appendString (lit "description") ++ [0x3A] = lit "\"description\":" := by decide
  have k4 : appendString (lit "rating") ++ [0x3A] = lit "\"rating\":" := by decide
  have k5 : appendString (lit "link") ++ [0x3A] = lit "\"link\":" := by decide
  have n1 : ("\"" ++ "title" ++ "\":" : String) = "\"title\":" := by decide
  have n2 : ("\"" ++ "genre" ++ "\":" : String) = "\"genre\":" := by decide
  have n3 : ("\"" ++ "description" ++ "\":" : String) = "\"description\":" := by decide
  have n4 : ("\"" ++ "rating" ++ "\":" : String) = "\"rating\":" := by decide
  have n5 : ("\"" ++ "link" ++ "\":" : String) = "\"link\":" := by decide
  simp only [structEncode, structLoop, Game.fields, objectText, memberText, k1, k2, k3, k4, k5,
    n1, n2, n3, n4, n5]
  simp

/-- The objects of the games after the first, each behind its comma. -/
theorem intercalate_objects (g : Game) (gs : List Game) :
    List.intercalate [0x2C] ((g :: gs).map objectText)
      = objectText g ++ (gs.map fun x => 0x2C :: objectText x).flatten := by
  induction gs generalizing g with
  | nil => simp [List.intercalate]
  | cons g2 gs ih =>
    have h := ih g2
    simp only [List.intercalate, List.map_cons, List.intersperse, List.flatten_cons,
      List.append_assoc] at h ⊢
    rw [h]; simp

theorem arrayLoop_eq : ∀ (gs : List Game) (i : Nat) (e : Bytes), 0 < i →
    arrayLoop gs i e = e ++ (gs.map fun x => 0x2C :: objectText x).flatten := by
  intro gs
  induction gs with
  | nil => intro i e _; simp [arrayLoop]
  | cons g gs ih =>
    intro i e hi
    rw [arrayLoop, ih _ _ (Nat.succ_pos i), structEncode_eq, if_pos hi]
    simp

theorem sliceEncode_eq (games : List Game) :
    sliceEncode games = if games = [] then lit "null" else arrayText games := by
  unfold sliceEncode arrayText
  cases games with
  | nil => simp
  | cons g gs =>
    rw [intercalate_objects, arrayLoop, arrayLoop_eq _ _ _ (Nat.succ_pos 0), structEncode_eq]
    simp

theorem objectText_eq (g : Game) :
    objectText g = 0x7B :: (appendString (lit "title") ++ 0x3A :: (appendString g.Title ++ 0x2C ::
      (appendString (lit "genre") ++ 0x3A :: (appendString g.Genre ++ 0x2C ::
      (appendString (lit "description") ++ 0x3A :: (appendString g.Description ++ 0x2C ::
      (appendString (lit "rating") ++ 0x3A :: (appendString g.Rating ++ 0x2C ::
      (appendString (lit "link") ++ 0x3A :: (appendString g.Link ++ [0x7D])))))))))) := by
  rw [← List.nil_append (objectText g), ← structEncode_eq]
  simp [structEncode, structLoop, Game.fields]

theorem length_appendString (v : Bytes) : 2 ≤ (appendString v).length := by
  rw [appendString_eq]; simp

theorem objectLoop_fields (k : Nat) (g : Game) (hv : g.Valid = true) (rest : Bytes) :
    objectLoop (k + 5) Game.zero
      (appendString (lit "title") ++ 0x3A :: (appendString g.Title ++ 0x2C ::
      (appendString (lit "genre") ++ 0x3A :: (appendString g.Genre ++ 0x2C ::
      (appendString (lit "description") ++ 0x3A :: (appendString g.Description ++ 0x2C ::
      (appendString (lit "rating") ++ 0x3A :: (appendString g.Rating ++ 0x2C ::
      (appendString (lit "link") ++ 0x3A :: (appendString g.Link ++ 0x7D :: rest))))))))))
      = some (g, rest) := by
  simp only [Game.Valid, Bool.and_eq_true] at hv
  obtain ⟨⟨⟨⟨v1, v2⟩, v3⟩, v4⟩, v5⟩ := hv
  have s1 : setField Game.zero (lit "title") g.Title = some ⟨g.Title, [], [], [], []⟩ := rfl
  have s2 : setField ⟨g.Title, [], [], [], []⟩ (lit "genre") g.Genre
      = some ⟨g.Title, g.Genre, [], [], []⟩ := rfl
  have s3 : setField ⟨g.Title, g.Genre, [], [], []⟩ (lit "description") g.Description
      = some ⟨g.Title, g.Genre, g.Description, [], []⟩ := rfl
  have s4 : setField ⟨g.Title, g.Genre, g.Description, [], []⟩ (lit "rating") g.Rating
      = some ⟨g.Title, g.Genre, g.Description, g.Rating, []⟩ := rfl
  have s5 : setField ⟨g.Title, g.Genre, g.Description, g.Rating, []⟩ (lit "link") g.Link
      = some g := rfl
  rw [objectLoop_member_comma (k + 4) _ _ _ _ _ (by decide) v1 s1,
    objectLoop_member_comma (k + 3) _ _ _ _ _ (by decide) v2 s2,
    objectLoop_member_comma (k + 2) _ _ _ _ _ (by decide) v3 s3,
    objectLoop_member_comma (k + 1) _ _ _ _ _ (by decide) v4 s4,
    objectLoop_member_close k _ _ _ _ _ (by decide) v5 s5]

theorem object_objectText (g : Game) (hv : g.Valid = true) (rest : Bytes) :
    object (objectText g ++ rest) = some (g, rest) := by
  rw [objectText_eq]
  simp only [List.cons_append, List.append_assoc, List.nil_append, object, expect, if_true,
    Option.bind_eq_bind, Option.some_bind, bind, skipSpace_appendString]
  have h2 := length_appendString (lit "title")
  have h3 := length_appendString g.Title
  generalize hX : appendString (lit "title") ++ 0x3A :: (appendString g.Title ++ 0x2C ::
      (appendString (lit "genre") ++ 0x3A :: (appendString g.Genre ++ 0x2C ::
      (appendString (lit "description") ++ 0x3A :: (appendString g.Description ++ 0x2C ::
      (appendString (lit "rating") ++ 0x3A :: (appendString g.Rating ++ 0x2C ::
      (appendString (lit "link") ++ 0x3A :: (appendString g.Link ++ 0x7D :: rest))))))))) = X
  have hlen : 4 ≤ X.length := by
    rw [← hX]; simp only [List.length_append, List.length_cons]; omega
  obtain ⟨k, hk⟩ : ∃ k, X.length + 1 = k + 5 := ⟨X.length - 4, by omega⟩
  have hhead : ∃ Y, X = 0x22 :: Y := by
    rw [← hX, appendString_eq]; exact ⟨_, rfl⟩
  obtain ⟨Y, hY⟩ := hhead
  have hobj := objectLoop_fields k g hv rest
  rw [hX] at hobj
  rw [hk]
  rw [hY] at hobj ⊢
  simp only []
  rw [if_neg (by decide)]
  exact hobj

theorem objectText_head (g : Game) : ∃ Y, objectText g = 0x7B :: Y := by
  rw [objectText_eq]; exact ⟨_, rfl⟩

theorem skipSpace_objectText (g : Game) (rest : Bytes) :
    skipSpace (objectText g ++ rest) = objectText g ++ rest := by
  obtain ⟨Y, hY⟩ := objectText_head g
  rw [hY, List.cons_append]
  exact skipSpace_cons _ _ (by decide)

theorem arrayElems_objects : ∀ (gs : List Game) (g : Game) (fuel : Nat) (rest : Bytes),
    gs.length < fuel → (∀ x ∈ g :: gs, x.Valid = true) →
    arrayElems fuel (objectText g ++ ((gs.map fun x => 0x2C :: objectText x).flatten ++ 0x5D :: rest))
      = some (g :: gs, rest) := by
  intro gs
  induction gs with
  | nil =>
    intro g fuel rest hfuel hv
    obtain ⟨f, rfl⟩ : ∃ f, fuel = f + 1 := ⟨fuel - 1, by omega⟩
    have hg := hv g (List.mem_cons_self _ _)
    simp only [List.map_nil, List.flatten_nil, List.nil_append, arrayElems, skipSpace_objectText,
      object_objectText g hg, Option.bind_eq_bind, Option.some_bind, bind,
      skipSpace_cons 0x5D rest (by decide), if_true]
  | cons g2 gs ih =>
    intro g fuel rest hfuel hv
    obtain ⟨f, rfl⟩ : ∃ f, fuel = f + 1 := ⟨fuel - 1, by omega⟩
    have hg := hv g (List.mem_cons_self _ _)
    have hrest : ∀ x ∈ g2 :: gs, x.Valid = true := fun x hx => hv x (List.mem_cons_of_mem _ hx)
    have hf : gs.length < f := by simp only [List.length_cons] at hfuel; omega
    have e1 : ¬ (0x2C : Nat) = 0x5D := by decide
    simp only [List.map_cons, List.flatten_cons, List.cons_append, List.append_assoc, arrayElems,
      skipSpace_objectText, object_objectText g hg, Option.bind_eq_bind, Option.some_bind, bind,
      skipSpace_cons 0x2C _ (by decide), if_neg e1, if_true, ih g2 f rest hf hrest, Option.map_some']

theorem length_flatten_objects (gs : List Game) :
    gs.length ≤ ((gs.map fun x => 0x2C :: objectText x).flatten).length := by
  induction gs with
  | nil => simp
  | cons g gs ih => simp only [List.map_cons, List.flatten_cons, List.length_append, List.length_cons]; omega

/-- Decoding the array text of valid games gives the games back. -/
theorem Unmarshal_sliceEncode (games : List Game) (hv : ∀ x ∈ games, x.Valid = true) :
    Unmarshal (sliceEncode games) = some games := by
  cases games with
  | nil => decide
  | cons g gs =>
    have hnull : lit "null" = [0x6E, 0x75, 0x6C, 0x6C] := by decide
    obtain ⟨Y, hY⟩ := objectText_head g
    have hlen := length_flatten_objects gs
    have hdec := arrayElems_objects gs g
      ((objectText g ++ ((gs.map fun x => 0x2C :: objectText x).flatten ++ [0x5D])).length + 1) [] (by
        simp only [List.length_append]; omega) hv
    rw [sliceEncode_eq, if_neg (by simp), arrayText, intercalate_objects]
    simp only [Unmarshal, List.cons_append, List.nil_append, List.append_assoc,
      skipSpace_cons 0x5B _ (by decide), hnull, List.take_succ_cons, List.cons.injEq]
    rw [if_neg (fun h => absurd h.1 (by decide))]
    simp only [expect, if_true, Option.bind_eq_bind, Option.some_bind, bind, skipSpace_objectText]
    rw [hY] at hdec ⊢
    simp only [List.cons_append]  at hdec ⊢
    rw [if_neg (by decide), hdec]
    simp [skipSpace]

/-! ## The model on sample inputs -/

theorem appendString_sample :
    appendString (lit "a<b\"\n") = lit "\"a\\u003cb\\\"\\n\""
      ∧ appendString [0xE2, 0x80, 0xA8, 0xFF, 0xC3, 0xA9]
          = lit "\"\\u2028\\ufffd" ++ [0xC3, 0xA9, 0x22] := by
  decide

set_option maxRecDepth 100000 in
theorem Unmarshal_sample :
    Unmarshal (lit " [ ] ") = some []
      ∧ Unmarshal (lit "[\x7b\"title\":\"a\\u003c\\n\", \"link\" : \"\\ud83d\\ude00\"\x7d, \x7b\x7d]")
          = some [⟨lit "a<\n", [], [], [], [0xF0, 0x9F, 0x98, 0x80]⟩, Game.zero]
      ∧ Unmarshal (lit "[\x7b\"Title\":\"a\"\x7d]") = none := by
  decide

/-! ## Lemmas: the handlers -/

theorem Get_eq_firstValue (form : Values) (k : Bytes) :
    form.Get k = (firstValue form k).getD [] := by
  unfold Values.Get firstValue
  cases h : List.lookup k form with
  | none => rfl
  | some vs => cases vs <;> rfl

theorem createGameHandler_ok (s : List Game) (w : ResponseWriter) (r : Request) (form : Values)
    (h : r.ParseForm = .ok form) :
    createGameHandler s w r = (s ++ [gameOfForm form], Redirect w r "/assets/" StatusFound) := by
  simp only [createGameHandler, h, Game.zero, gameOfForm]

theorem createGameHandler_error (s : List Game) (w : ResponseWriter) (r : Request) (e : String)
    (h : r.ParseForm = .error e) :
    createGameHandler s w r = (s, w.WriteHeader StatusInternalServerError) := by
  simp only [createGameHandler, h]

theorem createAll_ok : ∀ (rs : List Request) (forms : List Values) (s : List Game),
    rs.map Request.ParseForm = forms.map Except.ok →
    createAll s rs = s ++ forms.map gameOfForm := by
  intro rs
  induction rs with
  | nil =>
    intro forms s h
    cases forms with
    | nil => simp [createAll]
    | cons f fs => simp at h
  | cons r rs ih =>
    intro forms s h
    cases forms with
    | nil => simp at h
    | cons f fs =>
      simp only [List.map_cons, List.cons.injEq] at h
      rw [createAll, createGameHandler_ok s NewRecorder r f h.1, ih fs _ h.2]
      simp

theorem getGameHandler_eq (s : List Game) (w : ResponseWriter) (r : Request) :
    getGameHandler s w r = (s, w.Write (sliceEncode s)) := rfl

theorem Write_NewRecorder (b : Bytes) : NewRecorder.Write b = ⟨[], true, 200, b⟩ := rfl

/-! ## The claims -/

/-- C1. For every store and every request whose form decodes, `createGameHandler`
leaves the store with exactly one record appended at the end; each of its five
fields is the first value the form binds to the field's name, the empty string
when the form has no value for it; when the form has none of the five names
the appended record has five empty fields. -/
theorem createGameHandler_appends_record (s : List Game) (w : ResponseWriter) (r : Request)
    (form : Values) (h : r.ParseForm = .ok form) :
    (createGameHandler s w r).1
        = s ++ [⟨(firstValue form (lit "title")).getD [], (firstValue form (lit "genre")).getD [],
                 (firstValue form (lit "description")).getD [],
                 (firstValue form (lit "rating")).getD [], (firstValue form (lit "link")).getD []⟩]
      ∧ ((∀ k ∈ [lit "title", lit "genre", lit "description", lit "rating", lit "link"],
            form.lookup k = none) →
          (createGameHandler s w r).1 = s ++ [⟨[], [], [], [], []⟩]) := by
  rw [createGameHandler_ok s w r form h]
  constructor
  · simp only [gameOfForm, Get_eq_firstValue]
  · intro habs
    have e : ∀ k ∈ [lit "title", lit "genre", lit "description", lit "rating", lit "link"],
        form.Get k = [] := by
      intro k hk
      rw [Get_eq_firstValue, firstValue, habs k hk]; rfl
    simp only [gameOfForm, e _ (by simp : lit "title" ∈ _), e _ (by simp : lit "genre" ∈ _),
      e _ (by simp : lit "description" ∈ _), e _ (by simp : lit "rating" ∈ _),
      e _ (by simp : lit "link" ∈ _)]

theorem createGameHandler_appends_record_witness :
    chessPost.ParseForm = .ok chessForm
      ∧ (createGameHandler [Game.zero] NewRecorder chessPost).1 = [Game.zero, chess]
      ∧ (∀ k ∈ [lit "title", lit "genre", lit "description", lit "rating", lit "link"],
          List.lookup k ([] : Values) = none)
      ∧ (createGameHandler [chess] NewRecorder ⟨"POST", .ok []⟩).1 = [chess, Game.zero] :=
  ⟨rfl, (createGameHandler_appends_record [Game.zero] NewRecorder chessPost chessForm rfl).1,
    fun _ _ => rfl,
    (createGameHandler_appends_record [chess] NewRecorder ⟨"POST", .ok []⟩ [] rfl).2
      (fun _ _ => rfl)⟩

/-- C4. For every store and every request whose body does not decode as form
data, `createGameHandler` answers 500 with an empty body and leaves the store
as it was. -/
theorem createGameHandler_decode_fault (s : List Game) (r : Request) (e : String)
    (h : r.ParseForm = .error e) :
    (createGameHandler s NewRecorder r).1 = s
      ∧ (createGameHandler s NewRecorder r).2.Code = 500
      ∧ (createGameHandler s NewRecorder r).2.Body = [] := by
  rw [createGameHandler_error s NewRecorder r e h]
  exact ⟨rfl, rfl, rfl⟩

theorem createGameHandler_decode_fault_witness :
    badPost.ParseForm = .error "invalid URL escape \"%zz\""
      ∧ (createGameHandler [chess] NewRecorder badPost).1 = [chess]
      ∧ (createGameHandler [chess] NewRecorder badPost).2.Code = 500
      ∧ (createGameHandler [chess] NewRecorder badPost).2.Body = [] :=
  ⟨rfl, createGameHandler_decode_fault [chess] badPost _ rfl⟩

/-- C8. `getGameHandler` is read-only and independent of the request: the store
after the call is the store before it, and two requests against the same store
get the same response. -/
theorem getGameHandler_read_only (s : List Game) (w : ResponseWriter) (r1 r2 : Request) :
    (getGameHandler s w r1).1 = s ∧ (getGameHandler s w r1).2 = (getGameHandler s w r2).2 :=
  ⟨rfl, rfl⟩

/-- C9. Writes are not idempotent: serving a decoded request twice leaves the
store with two more entries than before, two equal records at its end, which
is not the store left by serving it once. -/
theorem createGameHandler_not_idempotent (s : List Game) (w : ResponseWriter) (r : Request)
    (form : Values) (h : r.ParseForm = .ok form) :
    (createGameHandler (createGameHandler s w r).1 w r).1 = s ++ [gameOfForm form, gameOfForm form]
      ∧ (createGameHandler (createGameHandler s w r).1 w r).1.length = s.length + 2
      ∧ (createGameHandler (createGameHandler s w r).1 w r).1 ≠ (createGameHandler s w r).1 := by
  rw [createGameHandler_ok s w r form h, createGameHandler_ok _ w r form h]
  refine ⟨by simp, by simp, ?_⟩
  intro hh
  have := congrArg List.length hh
  simp at this

theorem createGameHandler_not_idempotent_witness :
    chessPost.ParseForm = .ok chessForm
      ∧ (createGameHandler (createGameHandler [] NewRecorder chessPost).1 NewRecorder chessPost).1
          = [chess, chess]
      ∧ (createGameHandler [] NewRecorder chessPost).1 = [chess] :=
  ⟨rfl, (createGameHandler_not_idempotent [] NewRecorder chessPost chessForm rfl).1, rfl⟩

/-- C10. The appended record depends only on the first value bound to each of
the five names: two decoded forms that agree on the first value, or the
absence, of title, genre, description, rating and link make the handler append
equal records, whatever further values and other keys they hold. -/
theorem createGameHandler_first_values_only (s : List Game) (w : ResponseWriter)
    (r1 r2 : Request) (f1 f2 : Values) (h1 : r1.ParseForm = .ok f1) (h2 : r2.ParseForm = .ok f2)
    (hagree : ∀ k ∈ [lit "title", lit "genre", lit "description", lit "rating", lit "link"],
      firstValue f1 k = firstValue f2 k) :
    (createGameHandler s w r1).1 = (createGameHandler s w r2).1 := by
  rw [createGameHandler_ok s w r1 f1 h1, createGameHandler_ok s w r2 f2 h2]
  simp only [gameOfForm, Get_eq_firstValue, hagree _ (by simp : lit "title" ∈ _),
    hagree _ (by simp : lit "genre" ∈ _), hagree _ (by simp : lit "description" ∈ _),
    hagree _ (by simp : lit "rating" ∈ _), hagree _ (by simp : lit "link" ∈ _)]

theorem createGameHandler_first_values_only_witness :
    (∀ k ∈ [lit "title", lit "genre", lit "description", lit "rating", lit "link"],
        firstValue [(lit "title", [lit "Go", lit "Chess"]), (lit "id", [lit "7"])] k
          = firstValue [(lit "title", [lit "Go"])] k)
      ∧ (createGameHandler [chess] NewRecorder
        ⟨"POST", .ok [(lit "title", [lit "Go", lit "Chess"]), (lit "id", [lit "7"])]⟩).1
      = (createGameHandler [chess] NewRecorder ⟨"PUT", .ok [(lit "title", [lit "Go"])]⟩).1 :=
  ⟨by decide, createGameHandler_first_values_only [chess] NewRecorder _ _
    [(lit "title", [lit "Go", lit "Chess"]), (lit "id", [lit "7"])] [(lit "title", [lit "Go"])]
    rfl rfl (by decide)⟩

/-- C2, as amended. From the empty store, after any sequence of writes whose
forms decode and whose five values are valid UTF-8, the store holds the
written records in order, and a read answers 200 with a body that decodes to
exactly these records, as many as there were writes, in the order of the
writes, each field the value its write supplied (empty when absent). -/
theorem read_after_writes (rs : List Request) (forms : List Values) (get : Request)
    (hok : rs.map Request.ParseForm = forms.map Except.ok)
    (hvalid : ∀ f ∈ forms, (gameOfForm f).Valid = true) :
    createAll [] rs = forms.map gameOfForm
      ∧ (forms.map gameOfForm).length = rs.length
      ∧ (getGameHandler (createAll [] rs) NewRecorder get).2.Code = 200
      ∧ Unmarshal (getGameHandler (createAll [] rs) NewRecorder get).2.Body
          = some (forms.map gameOfForm) := by
  have hstore : createAll [] rs = forms.map gameOfForm := by
    rw [createAll_ok rs forms [] hok]; rfl
  have hlen : (forms.map gameOfForm).length = rs.length := by
    have := congrArg List.length hok
    simp only [List.length_map] at this ⊢
    exact this.symm
  refine ⟨hstore, hlen, rfl, ?_⟩
  rw [getGameHandler_eq, Write_NewRecorder, hstore]
  apply Unmarshal_sliceEncode
  intro x hx
  obtain ⟨f, hf, rfl⟩ := List.mem_map.mp hx
  exact hvalid f hf

set_option maxRecDepth 100000 in
theorem read_after_writes_witness :
    [chessPost, ⟨"POST", .ok []⟩].map Request.ParseForm = [chessForm, []].map Except.ok
      ∧ (∀ f ∈ [chessForm, []], (gameOfForm f).Valid = true)
      ∧ Unmarshal (getGameHandler (createAll [] [chessPost, ⟨"POST", .ok []⟩]) NewRecorder plainGet).2.Body
          = some [chess, Game.zero] :=
  ⟨rfl, by decide, (read_after_writes [chessPost, ⟨"POST", .ok []⟩] [chessForm, []] plainGet rfl
    (by decide)).2.2.2⟩

set_option maxRecDepth 100000 in
/-- C2 fails as stated: after the one write whose title is the byte 0xFF, the
body of the read lists one entry whose title is U+FFFD, not the value the
write supplied. -/
theorem read_after_write_of_invalid_utf8 :
    latin1Post.ParseForm = .ok latin1Form
      ∧ createAll [] [latin1Post] = [⟨[0xFF], [], [], [], []⟩]
      ∧ (getGameHandler (createAll [] [latin1Post]) NewRecorder plainGet).2.Body
          = lit "[\x7b\"title\":\"\\ufffd\",\"genre\":\"\",\"description\":\"\",\"rating\":\"\",\"link\":\"\"\x7d]"
      ∧ Unmarshal (getGameHandler (createAll [] [latin1Post]) NewRecorder plainGet).2.Body
          = some [⟨[0xEF, 0xBF, 0xBD], [], [], [], []⟩]
      ∧ Unmarshal (getGameHandler (createAll [] [latin1Post]) NewRecorder plainGet).2.Body
          ≠ some [gameOfForm latin1Form] :=
  ⟨rfl, by decide⟩

/-- C5. For every store and every request the write route hands to the handler
whose form decodes, whatever the field values, the response of
`createGameHandler` is a 302 redirect to the fixed path "/assets/" with no
body. The route serves POST; the statement holds for every method other than
GET. -/
theorem createGameHandler_redirects (s : List Game) (r : Request) (form : Values)
    (h : r.ParseForm = .ok form) (hm : r.Method ≠ "GET") :
    (createGameHandler s NewRecorder r).2.Code = 302
      ∧ (createGameHandler s NewRecorder r).2.header.lookup "Location" = some "/assets/"
      ∧ (createGameHandler s NewRecorder r).2.Body = [] := by
  rw [createGameHandler_ok s NewRecorder r form h]
  obtain ⟨m, pf⟩ := r
  have hb : (m == "GET") = false := by simpa using hm
  by_cases hh : m = "HEAD"
  · subst hh
    exact ⟨rfl, rfl, rfl⟩
  · have hb2 : (m == "HEAD") = false := by simp [hh]
    refine ⟨?_, ?_, ?_⟩ <;> simp only [Redirect, hb, hb2] <;> rfl

theorem createGameHandler_redirects_witness :
    chessPost.ParseForm = .ok chessForm ∧ chessPost.Method ≠ "GET"
      ∧ (createGameHandler [] NewRecorder chessPost).2.Code = 302
      ∧ (createGameHandler [] NewRecorder chessPost).2.header.lookup "Location" = some "/assets/"
      ∧ (createGameHandler [] NewRecorder chessPost).2.Body = [] :=
  ⟨rfl, by decide, createGameHandler_redirects [] chessPost chessForm rfl (by decide)⟩

/-- The redirect on a GET, a method the router does not send to this handler:
http.Redirect then also writes a short HTML link as the body. -/
theorem Redirect_get_writes_link :
    (Redirect NewRecorder plainGet "/assets/" StatusFound).Code = 302
      ∧ (Redirect NewRecorder plainGet "/assets/" StatusFound).Body
          = lit "<a href=\"/assets/\">Found</a>.\n\n" := by
  decide

/-- C6, as amended. On the store nothing was written to, `getGameHandler`
answers 200 and its body is the four bytes `null`, the serialization of a nil
slice, which decodes to the list of no games. -/
theorem getGameHandler_initial_store (r : Request) :
    (getGameHandler [] NewRecorder r).2.Code = 200
      ∧ (getGameHandler [] NewRecorder r).2.Body = lit "null"
      ∧ Unmarshal (getGameHandler [] NewRecorder r).2.Body = some [] :=
  ⟨rfl, rfl, by show Unmarshal (lit "null") = some []; decide⟩

/-- C6 fails as stated: the body read from the initial store is not the empty
JSON array. -/
theorem getGameHandler_initial_store_not_array :
    (getGameHandler [] NewRecorder plainGet).2.Body ≠ lit "[]" := by
  decide

/-- C7, as amended. For every store whose fields are valid UTF-8, decoding the
body `getGameHandler` writes gives back the entries of the store: as many, in
the same order, with the same five values. -/
theorem body_round_trip (s : List Game) (r : Request) (hvalid : ∀ g ∈ s, g.Valid = true) :
    Unmarshal (getGameHandler s NewRecorder r).2.Body = some s := by
  rw [getGameHandler_eq, Write_NewRecorder]
  exact Unmarshal_sliceEncode s hvalid

set_option maxRecDepth 100000 in
theorem body_round_trip_witness :
    (∀ g ∈ [chess, ⟨[0xE2, 0x80, 0xA8], lit "<b>", [0xC3, 0xA9], [0x0A], [0xF0, 0x9F, 0x98, 0x80]⟩],
        g.Valid = true)
      ∧ Unmarshal (getGameHandler
          [chess, ⟨[0xE2, 0x80, 0xA8], lit "<b>", [0xC3, 0xA9], [0x0A], [0xF0, 0x9F, 0x98, 0x80]⟩]
          NewRecorder plainGet).2.Body
        = some [chess, ⟨[0xE2, 0x80, 0xA8], lit "<b>", [0xC3, 0xA9], [0x0A], [0xF0, 0x9F, 0x98, 0x80]⟩] :=
  ⟨by decide, body_round_trip _ plainGet (by decide)⟩

set_option maxRecDepth 100000 in
/-- C7 fails as stated: the store whose link holds the byte 0xE9 is written
with the escape of U+FFFD in the place of that byte, so decoding the body
gives a store with another link. -/
theorem body_round_trip_fails_on_invalid_utf8 :
    (getGameHandler latin1Store NewRecorder plainGet).2.Body
        = lit "[\x7b\"title\":\"Chess\",\"genre\":\"Board\",\"description\":\"Classic\",\"rating\":\"5\",\"link\":\"h\\ufffd\"\x7d]"
      ∧ latin1Store ≠ replacedStore
      ∧ Unmarshal (getGameHandler latin1Store NewRecorder plainGet).2.Body = some replacedStore
      ∧ Unmarshal (getGameHandler latin1Store NewRecorder plainGet).2.Body ≠ some latin1Store := by
  decide

end Gamepedia
